import Mathlib

/-! Shallow embedding of the row classification and field extraction core of
the Zyme spreadsheet processor (src/utils/excelProcessor.ts), together with
proofs about its behaviour.  JavaScript strings are represented as lists of
characters; the fallible top level is represented with Except. -/

namespace Zyme

/-- Characters of a JavaScript string: the representation used throughout this
development for the text values the processor manipulates. -/
abbrev Str := List Char

/-- Whitespace test backing the model of String.prototype.trim. -/
def isWS (c : Char) : Bool := c.isWhitespace

/-- Model of String.prototype.trim: remove leading and trailing whitespace. -/
def trim (s : Str) : Str := ((s.dropWhile isWS).reverse.dropWhile isWS).reverse

/-- Model of String.prototype.toLowerCase on the characters the repository
compares. -/
def toLowerStr (s : Str) : Str := s.map Char.toLower

/-- Model of String.prototype.toUpperCase on the characters the repository
compares. -/
def toUpperStr (s : Str) : Str := s.map Char.toUpper

/-- Boolean test that the first list is an initial segment of the second. -/
def leadsWith : Str → Str → Bool
  | [], _ => true
  | _ :: _, [] => false
  | a :: as, b :: bs => a == b && leadsWith as bs

/-- Model of String.prototype.includes: the needle occurs contiguously in the
haystack. -/
def containsSub (hay needle : Str) : Bool :=
  match hay with
  | [] => needle.isEmpty
  | _ :: t => leadsWith needle hay || containsSub t needle

/-- Propositional form of contiguous occurrence: v occurs inside s. -/
def SubStr (v s : Str) : Prop := ∃ p q, s = p ++ v ++ q

/-- Configuration of the two keyword and code sets (interface ProcessConfig in
src/utils/excelProcessor.ts, lines 3-6). -/
structure ProcessConfig where
  highRiskKeywords : List Str
  aprvCodes : List Str

/-- A raw spreadsheet cell: either null or undefined, or a defined value
carried as the character sequence that String(val) produces for it. -/
inductive Cell where
  | absent : Cell
  | val : Str → Cell
deriving DecidableEq

/-- Embedding of getCellValue (src/utils/excelProcessor.ts, lines 11-16):
bounds-safe access to a raw row returning the trimmed string form of the cell,
and the empty string for a missing row, an out-of-range index or a null or
undefined cell. -/
def getCellValue (row : Option (List Cell)) (index : Int) : Str :=
  match row with
  | none => []
  | some r =>
    if index < 0 ∨ (r.length : Int) ≤ index then []
    else
      match r.get? index.toNat with
      | none => []
      | some Cell.absent => []
      | some (Cell.val s) => trim s

/-- Case-insensitive literal match of the key at the head of the text,
returning the remaining text (the i flag of the extraction pattern in
src/utils/excelProcessor.ts, line 23). -/
def stripCI : Str → Str → Option Str
  | [], t => some t
  | _ :: _, [] => none
  | k :: ks, c :: cs => if k.toLower == c.toLower then stripCI ks cs else none

/-- One attempt of the pattern key=([^|]+)\| at the head of the text: the key
(case-insensitively), an equals sign, a nonempty run of characters other than
the bar, and a closing bar.  Returns the captured run together with the text
after the closing bar. -/
def matchAt (key text : Str) : Option (Str × Str) :=
  match stripCI key text with
  | some ('=' :: r2) =>
    match r2.dropWhile (fun c => !(c == '|')) with
    | '|' :: after =>
      if (r2.takeWhile (fun c => !(c == '|'))).isEmpty then none
      else some (r2.takeWhile (fun c => !(c == '|')), after)
    | _ => none
  | _ => none

/-- Fuel-indexed scan of the global case-insensitive pattern: at each position
either the pattern matches and scanning resumes after the closing bar, or
scanning moves one character ahead.  The fuel serves structural termination
only; on text of length at most the fuel it is never exhausted. -/
def extractGo (key : Str) : Nat → Str → List Str
  | 0, _ => []
  | _ + 1, [] => []
  | fuel + 1, c :: rest =>
    match matchAt key (c :: rest) with
    | some (run, after) =>
      if run.isEmpty then extractGo key fuel after
      else trim run :: extractGo key fuel after
    | none => extractGo key fuel rest

/-- Embedding of extractValues (src/utils/excelProcessor.ts, lines 21-32): all
values of the key=value| pattern in the text, in source order, each trimmed,
found by a global case-insensitive scan.  The guard on the captured group of
the source (if match one is truthy) is the isEmpty test inside extractGo. -/
def extractValues (text key : Str) : List Str := extractGo key text.length text

/-- The isHighRisk test (src/utils/excelProcessor.ts, lines 124-126): some
configured keyword is truthy (nonempty) and occurs, case-insensitively, inside
the customer name. -/
def isHighRiskB (config : ProcessConfig) (rawI : Str) : Bool :=
  config.highRiskKeywords.any fun kw =>
    !kw.isEmpty && containsSub (toLowerStr rawI) (toLowerStr kw)

/-- The isAPRV test (src/utils/excelProcessor.ts, lines 129-131): some
configured code is truthy (nonempty) and equals the CTR cell up to case. -/
def isAPRVB (config : ProcessConfig) (rawO : Str) : Bool :=
  config.aprvCodes.any fun code =>
    !code.isEmpty && (toUpperStr rawO == toUpperStr code)

/-- The combinedSearchText value (src/utils/excelProcessor.ts, line 116): the
two search cells joined by a space, uppercased. -/
def combinedSearch (rawW rawAA : Str) : Str := toUpperStr (rawW ++ ' ' :: rawAA)

/-- The hasZKWD test (src/utils/excelProcessor.ts, line 117). -/
def hasZKWD (rawW rawAA : Str) : Bool :=
  containsSub (combinedSearch rawW rawAA) ("ZKWD".toList)

/-- The hasZEMB test (src/utils/excelProcessor.ts, line 118). -/
def hasZEMB (rawW rawAA : Str) : Bool :=
  containsSub (combinedSearch rawW rawAA) ("ZEMB".toList)

/-- Embedding of the status determination logic (src/utils/excelProcessor.ts,
lines 114-146), a priority-ordered chain over the five extracted cells and the
configuration. -/
def classify (rawI rawO rawL rawW rawAA : Str) (config : ProcessConfig) : Str :=
  if isHighRiskB config rawI then "High Risk".toList
  else if isAPRVB config rawO then "APRV".toList
  else if hasZKWD rawW rawAA || hasZEMB rawW rawAA then
    if hasZKWD rawW rawAA && hasZEMB rawW rawAA then "ZKWD & ZEMB".toList
    else if hasZKWD rawW rawAA then "ZKWD".toList
    else "ZEMB".toList
  else if rawL.isEmpty && rawO.isEmpty then "No add".toList
  else "SPL".toList

/-- The rawCombined text (src/utils/excelProcessor.ts, line 150): the two
search cells joined and terminated by bars. -/
def rawCombined (rawW rawAA : Str) : Str := rawW ++ '|' :: (rawAA ++ ['|'])

/-- One output slot (src/utils/excelProcessor.ts, lines 162-176): the i-th
extracted value, with a falsy (missing or empty) entry replaced by the empty
string. -/
def slot (l : List Str) (i : Nat) : Str :=
  match l.get? i with
  | some v => if v.isEmpty then [] else v
  | none => []

/-- The five slots a category occupies in an output row. -/
def slots5 (l : List Str) : List Str := [slot l 0, slot l 1, slot l 2, slot l 3, slot l 4]

/-- The fixed output header (src/utils/excelProcessor.ts, lines 74-96). -/
def newHeader : List Str :=
  ["Status", "File name", "Ref No", "Customer Name", "City", "CTR",
   "RPL 1", "RPL 2", "RPL 3", "RPL 4", "RPL 5",
   "Denial Type 1", "Denial Type 2", "Denial Type 3", "Denial Type 4", "Denial Type 5",
   "Splid 1", "Splid 2", "Splid 3", "Splid 4", "Splid 5"].map String.toList

/-- Embedding of one iteration of the row loop (src/utils/excelProcessor.ts,
lines 101-180): a missing or zero-length row is skipped; otherwise the fixed
columns are read, the status is classified, the three categories are extracted
from the combined search text, and the 21-field output row is assembled. -/
def transformRow (config : ProcessConfig) (rawRow : Option (List Cell)) : Option (List Str) :=
  match rawRow with
  | none => none
  | some r =>
    if r.length = 0 then none
    else
      let rawC := getCellValue (some r) 2
      let rawD := getCellValue (some r) 3
      let rawI := getCellValue (some r) 8
      let rawL := getCellValue (some r) 11
      let rawO := getCellValue (some r) 14
      let rawW := getCellValue (some r) 22
      let rawAA := getCellValue (some r) 26
      let status := classify rawI rawO rawL rawW rawAA config
      let matchNames := extractValues (rawCombined rawW rawAA) ("matchname".toList)
      let denialTypes := extractValues (rawCombined rawW rawAA) ("denialtype".toList)
      let splids := extractValues (rawCombined rawW rawAA) ("splid".toList)
      some ([status, rawC, rawD, rawI, rawL, rawO] ++
            slots5 matchNames ++ slots5 denialTypes ++ slots5 splids)

/-- Embedding of the core of processExcelFile (src/utils/excelProcessor.ts,
lines 69-180) from the parsed row array onward: an empty row array raises the
empty-sheet error and no report is produced; otherwise the report is the fixed
header followed by the transform of every surviving row, in order.  The file
reading and workbook decoding that precede this point are external I/O. -/
def processRows (jsonData : List (Option (List Cell))) (config : ProcessConfig) :
    Except String (List (List Str)) :=
  if jsonData.length = 0 then Except.error "The selected Excel sheet is empty."
  else Except.ok (newHeader :: jsonData.filterMap (transformRow config))

/-- Nonemptiness of a list makes isEmpty false. -/
theorem isEmpty_eq_false {l : Str} (h : l ≠ []) : l.isEmpty = false := by
  cases l with
  | nil => exact absurd rfl h
  | cons a t => rfl

/-- Boolean negation of isEmpty decides nonemptiness. -/
theorem not_isEmpty_iff (l : Str) : (!l.isEmpty) = true ↔ l ≠ [] := by
  cases l <;> simp

/-- The leadsWith test decides the initial-segment relation. -/
theorem leadsWith_iff (n h : Str) : leadsWith n h = true ↔ ∃ t, h = n ++ t := by
  induction n generalizing h with
  | nil => simp [leadsWith]
  | cons a as ih =>
    cases h with
    | nil => simp [leadsWith]
    | cons b bs =>
      simp only [leadsWith, Bool.and_eq_true, beq_iff_eq, ih, List.cons_append,
        List.cons.injEq]
      constructor
      · rintro ⟨rfl, t, rfl⟩
        exact ⟨t, rfl, rfl⟩
      · rintro ⟨t, rfl, rfl⟩
        exact ⟨rfl, t, rfl⟩

/-- The containsSub test decides contiguous occurrence. -/
theorem containsSub_iff (h n : Str) : containsSub h n = true ↔ SubStr n h := by
  induction h with
  | nil =>
    simp only [containsSub, List.isEmpty_iff, SubStr]
    constructor
    · rintro rfl
      exact ⟨[], [], rfl⟩
    · rintro ⟨p, q, hpq⟩
      have h0 : p ++ (n ++ q) = [] := by simpa [List.append_assoc] using hpq.symm
      exact (List.append_eq_nil.mp (List.append_eq_nil.mp h0).2).1
  | cons c t ih =>
    simp only [containsSub, Bool.or_eq_true, leadsWith_iff, ih]
    constructor
    · rintro (⟨u, hu⟩ | ⟨p, q, hp⟩)
      · exact ⟨[], u, by simpa using hu⟩
      · exact ⟨c :: p, q, by simp [hp]⟩
    · rintro ⟨p, q, hp⟩
      cases p with
      | nil =>
        left
        exact ⟨q, by simpa using hp⟩
      | cons x xs =>
        right
        simp only [List.cons_append, List.cons.injEq] at hp
        exact ⟨xs, q, hp.2⟩

/-- Contiguous occurrence is transitive. -/
theorem SubStr.trans {a b c : Str} (h1 : SubStr a b) (h2 : SubStr b c) : SubStr a c := by
  obtain ⟨p, q, rfl⟩ := h1
  obtain ⟨s, t, rfl⟩ := h2
  exact ⟨s ++ p, q ++ t, by simp⟩

/-- A character of a contiguous occurrence is a character of the whole. -/
theorem SubStr.mem {v s : Str} (h : SubStr v s) {c : Char} (hc : c ∈ v) : c ∈ s := by
  obtain ⟨p, q, rfl⟩ := h
  simp [hc]

/-- Dropping leading characters satisfying a test eats an initial segment. -/
theorem dropWhile_eat (f : Char → Bool) : ∀ l : Str, ∃ p, l = p ++ l.dropWhile f := by
  intro l
  induction l with
  | nil => exact ⟨[], rfl⟩
  | cons c t ih =>
    cases hf : f c with
    | true =>
      obtain ⟨p, hp⟩ := ih
      exact ⟨c :: p, by simpa [List.dropWhile, hf] using hp⟩
    | false => exact ⟨[], by simp [List.dropWhile, hf]⟩

/-- The trimmed text occurs contiguously in the original text. -/
theorem trim_subStr (s : Str) : SubStr (trim s) s := by
  obtain ⟨p, hp⟩ := dropWhile_eat isWS s
  obtain ⟨q, hq⟩ := dropWhile_eat isWS (s.dropWhile isWS).reverse
  refine ⟨p, q.reverse, ?_⟩
  have hd : s.dropWhile isWS = trim s ++ q.reverse := by
    have h2 := congrArg List.reverse hq
    simpa [trim, List.reverse_append] using h2
  rw [List.append_assoc, ← hd]
  exact hp

/-- Dropping with an everywhere-true test consumes the whole list. -/
theorem dropWhile_eq_nil_of_all {f : Char → Bool} :
    ∀ {l : Str}, (∀ c ∈ l, f c = true) → l.dropWhile f = [] := by
  intro l
  induction l with
  | nil => simp
  | cons c t ih =>
    intro h
    have hc := h c (by simp)
    simpa [List.dropWhile, hc] using ih fun x hx => h x (by simp [hx])

/-- Trimming whitespace-only text yields the empty text. -/
theorem trim_eq_nil_of_ws {s : Str} (h : ∀ c ∈ s, isWS c = true) : trim s = [] := by
  unfold trim
  rw [dropWhile_eq_nil_of_all h]
  simp

/-- Splitting a concatenation equality at the shorter left part. -/
theorem append_decomp :
    ∀ (x : Str) (y u v : Str), x ++ u = y ++ v → x.length ≤ y.length →
      ∃ w, y = x ++ w ∧ u = w ++ v := by
  intro x
  induction x with
  | nil =>
    intro y u v h _
    exact ⟨y, rfl, by simpa using h⟩
  | cons a x' ih =>
    intro y u v h hlen
    cases y with
    | nil => simp at hlen
    | cons b y' =>
      simp only [List.cons_append, List.cons.injEq] at h
      obtain ⟨rfl, h2⟩ := h
      obtain ⟨w, rfl, hw⟩ := ih y' u v h2 (by simpa using hlen)
      exact ⟨w, by simp, hw⟩

/-- Successful key matching consumes exactly the key's length. -/
theorem stripCI_spec :
    ∀ (key t r : Str), stripCI key t = some r → ∃ p, t = p ++ r ∧ p.length = key.length := by
  intro key
  induction key with
  | nil =>
    intro t r h
    simp only [stripCI, Option.some.injEq] at h
    exact ⟨[], by simp [h], rfl⟩
  | cons k ks ih =>
    intro t r h
    cases t with
    | nil => simp [stripCI] at h
    | cons c cs =>
      simp only [stripCI] at h
      split at h
      · obtain ⟨p, rfl, hp⟩ := ih cs r h
        exact ⟨c :: p, rfl, by simp [hp]⟩
      · exact absurd h (by simp)

/-- Matching a key against itself followed by anything strips the key. -/
theorem stripCI_self : ∀ (key rest : Str), stripCI key (key ++ rest) = some rest := by
  intro key
  induction key with
  | nil => intro rest; rfl
  | cons k ks ih => intro rest; simp [stripCI, ih]

/-- Splitting a run free of the stopping character followed by it. -/
theorem takeWhile_run (p : Char → Bool) :
    ∀ (run : Str) (x : Char) (rest : Str), (∀ c ∈ run, p c = true) → p x = false →
      ((run ++ x :: rest).takeWhile p = run ∧ (run ++ x :: rest).dropWhile p = x :: rest) := by
  intro run
  induction run with
  | nil =>
    intro x rest _ hx
    simp [List.takeWhile, List.dropWhile, hx]
  | cons c cs ih =>
    intro x rest hall hx
    have hc : p c = true := hall c (by simp)
    have := ih x rest (fun d hd => hall d (by simp [hd])) hx
    simp [List.takeWhile, List.dropWhile, hc, this.1, this.2]

/-- Characters kept by takeWhile satisfy the test. -/
theorem mem_takeWhile_pred {p : Char → Bool} :
    ∀ {l : Str} {c : Char}, c ∈ l.takeWhile p → p c = true := by
  intro l
  induction l with
  | nil => intro c h; simp [List.takeWhile] at h
  | cons a t ih =>
    intro c h
    cases ha : p a with
    | false => rw [List.takeWhile_cons, ha] at h; simp at h
    | true =>
      rw [List.takeWhile_cons, ha] at h
      rcases List.mem_cons.mp h with rfl | h2
      · exact ha
      · exact ih h2

/-- Anatomy of a successful pattern attempt: the text splits as a key-length
part, the equals sign, the nonempty bar-free captured run, the closing bar
and the continuation. -/
theorem matchAt_spec {key t run after : Str} (h : matchAt key t = some (run, after)) :
    ∃ p0, t = p0 ++ '=' :: (run ++ '|' :: after) ∧ p0.length = key.length ∧
      run ≠ [] ∧ ∀ c ∈ run, (c == '|') = false := by
  unfold matchAt at h
  split at h
  case h_2 => exact absurd h (by simp)
  case h_1 r1 r2 heq =>
    split at h
    case h_2 => exact absurd h (by simp)
    case h_1 d after' hdrop =>
      split at h
      · exact absurd h (by simp)
      case isFalse hne =>
        simp only [Option.some.injEq, Prod.mk.injEq] at h
        obtain ⟨rfl, rfl⟩ := h
        obtain ⟨p0, rfl, hlen⟩ := stripCI_spec key t _ heq
        have hsplit := List.takeWhile_append_dropWhile (fun c => !(c == '|')) r2
        rw [hdrop] at hsplit
        refine ⟨p0, ?_, hlen, ?_, ?_⟩
        · rw [hsplit]
        · intro hnil
          exact hne (by simp [hnil])
        · intro c hc
          have := mem_takeWhile_pred hc
          simpa using this

/-- A successful pattern attempt needs the key, the equals sign, a captured
character and the closing bar. -/
theorem matchAt_some_length {key t run after : Str} (h : matchAt key t = some (run, after)) :
    key.length + 3 ≤ t.length ∧ after.length + 3 ≤ t.length := by
  obtain ⟨p0, rfl, hlen, hne, _⟩ := matchAt_spec h
  have : 1 ≤ run.length := by
    cases run with
    | nil => exact absurd rfl hne
    | cons a b => simp
  simp only [List.length_append, List.length_cons]
  omega

/-- The pattern attempt succeeds on a text that starts with the key, the
equals sign and a nonempty bar-free run closed by a bar. -/
theorem matchAt_self (key run rest : Str) (hr : run ≠ []) (hp : '|' ∉ run) :
    matchAt key (key ++ '=' :: (run ++ '|' :: rest)) = some (run, rest) := by
  have hall : ∀ c ∈ run, (fun c => !(c == '|')) c = true := by
    intro c hc
    have : c ≠ '|' := fun hceq => hp (hceq ▸ hc)
    simp [this]
  have hbar : (fun c => !(c == '|')) '|' = false := by simp
  have hsplit := takeWhile_run (fun c => !(c == '|')) run '|' rest hall hbar
  unfold matchAt
  rw [stripCI_self]
  show (match (run ++ '|' :: rest).dropWhile (fun c => !(c == '|')) with
        | '|' :: after =>
          if ((run ++ '|' :: rest).takeWhile (fun c => !(c == '|'))).isEmpty then none
          else some ((run ++ '|' :: rest).takeWhile (fun c => !(c == '|')), after)
        | _ => none) = some (run, rest)
  rw [hsplit.2, hsplit.1, isEmpty_eq_false hr]
  rfl

/-- No pattern attempt succeeds while the scan is still inside a nonempty
leading part free of equals signs preceding the key. -/
theorem matchAt_none_of_eqFree {A0 key rest : Str} (hA : A0 ≠ []) (h1 : '=' ∉ A0)
    (h2 : '=' ∉ key) : matchAt key (A0 ++ (key ++ '=' :: rest)) = none := by
  cases hm : matchAt key (A0 ++ (key ++ '=' :: rest)) with
  | none => rfl
  | some pr =>
    obtain ⟨run, after⟩ := pr
    obtain ⟨p0, ht, hlen, _, _⟩ := matchAt_spec hm
    have hx : p0 ++ '=' :: (run ++ '|' :: after) = (A0 ++ key) ++ '=' :: rest := by
      rw [← ht]; simp [List.append_assoc]
    have hlt : p0.length < (A0 ++ key).length := by
      have : 1 ≤ A0.length := by
        cases A0 with
        | nil => exact absurd rfl hA
        | cons a b => simp
      simp only [List.length_append]
      omega
    obtain ⟨w, hw, hw2⟩ := append_decomp p0 (A0 ++ key) _ _ hx (le_of_lt hlt)
    cases w with
    | nil =>
      rw [hw] at hlt
      simp at hlt
    | cons wc wt =>
      have : wc = '=' := by
        simp only [List.cons_append, List.cons.injEq] at hw2
        exact hw2.1.symm
      subst this
      have : ('=' : Char) ∈ A0 ++ key := by
        rw [hw]
        simp
      rcases List.mem_append.mp this with h | h
      · exact (h1 h).elim
      · exact (h2 h).elim

/-- One unfolding step of the scan on nonempty text. -/
theorem extractGo_ne_nil (key : Str) (fuel : Nat) (t : Str) (h : t ≠ []) :
    extractGo key (fuel + 1) t =
      match matchAt key t with
      | some (run, after) =>
        if run.isEmpty then extractGo key fuel after
        else trim run :: extractGo key fuel after
      | none => extractGo key fuel t.tail := by
  cases t with
  | nil => exact absurd rfl h
  | cons c rest => rfl

/-- The scan result does not depend on the fuel once the fuel covers the
length of the text. -/
theorem extractGo_fuelEq (key : Str) :
    ∀ (f1 f2 : Nat) (t : Str), t.length ≤ f1 → t.length ≤ f2 →
      extractGo key f1 t = extractGo key f2 t := by
  intro f1
  induction f1 with
  | zero =>
    intro f2 t h1 _
    have ht : t = [] := List.eq_nil_of_length_eq_zero (Nat.le_zero.mp h1)
    subst ht
    cases f2 <;> rfl
  | succ f ih =>
    intro f2 t h1 h2
    cases t with
    | nil => cases f2 <;> rfl
    | cons c rest =>
      cases f2 with
      | zero => simp at h2
      | succ g =>
        rw [extractGo_ne_nil key f (c :: rest) (by simp),
          extractGo_ne_nil key g (c :: rest) (by simp)]
        cases hm : matchAt key (c :: rest) with
        | none =>
          show extractGo key f rest = extractGo key g rest
          exact ih g rest (by simpa using h1) (by simpa using h2)
        | some pr =>
          obtain ⟨run, after⟩ := pr
          have hlen := (matchAt_some_length hm).2
          simp only [List.length_cons] at hlen h1 h2
          show (if run.isEmpty then extractGo key f after
                else trim run :: extractGo key f after) =
              (if run.isEmpty then extractGo key g after
                else trim run :: extractGo key g after)
          rw [ih g after (by omega) (by omega)]

/-- On text too short to hold the key, the equals sign, a captured character
and the closing bar, the scan finds nothing. -/
theorem extractGo_short {key : Str} :
    ∀ (fuel : Nat) (t : Str), t.length < key.length + 3 → extractGo key fuel t = [] := by
  intro fuel
  induction fuel with
  | zero => intro t _; rfl
  | succ f ih =>
    intro t h
    cases t with
    | nil => rfl
    | cons c rest =>
      rw [extractGo_ne_nil key f (c :: rest) (by simp)]
      cases hm : matchAt key (c :: rest) with
      | none =>
        show extractGo key f rest = []
        exact ih rest (by simp only [List.length_cons] at h; omega)
      | some pr =>
        obtain ⟨run, after⟩ := pr
        have h2 := (matchAt_some_length hm).1
        simp only [List.length_cons] at h h2
        omega

/-- Occurrence of a value inside the text. -/
theorem SubStr_cons {v t : Str} (c : Char) (h : SubStr v t) : SubStr v (c :: t) := by
  obtain ⟨p, q, rfl⟩ := h
  exact ⟨c :: p, q, rfl⟩

/-- Every value the scan returns is the trim of a nonempty bar-free run that
occurs contiguously in the scanned text. -/
theorem extractGo_mem_spec {key : Str} :
    ∀ (fuel : Nat) (t v : Str), v ∈ extractGo key fuel t →
      ∃ run, SubStr run t ∧ run ≠ [] ∧ (∀ c ∈ run, (c == '|') = false) ∧ v = trim run := by
  intro fuel
  induction fuel with
  | zero => intro t v h; simp [extractGo] at h
  | succ f ih =>
    intro t v h
    cases t with
    | nil => simp [extractGo] at h
    | cons c rest =>
      rw [extractGo_ne_nil key f (c :: rest) (by simp)] at h
      cases hm : matchAt key (c :: rest) with
      | none =>
        rw [hm] at h
        obtain ⟨run, hsub, hne, hbar, hv⟩ := ih rest v h
        exact ⟨run, SubStr_cons c hsub, hne, hbar, hv⟩
      | some pr =>
        obtain ⟨run, after⟩ := pr
        rw [hm] at h
        replace h : v ∈ (if run.isEmpty = true then extractGo key f after
            else trim run :: extractGo key f after) := h
        obtain ⟨p0, hdec, _, hne, hbar⟩ := matchAt_spec hm
        have hrunSub : SubStr run (c :: rest) := by
          refine ⟨p0 ++ ['='], '|' :: after, ?_⟩
          rw [hdec]
          simp
        have haftSub : SubStr after (c :: rest) := by
          refine ⟨p0 ++ '=' :: (run ++ ['|']), [], ?_⟩
          rw [hdec]
          simp
        have htail : ∀ w, w ∈ extractGo key f after →
            ∃ r2, SubStr r2 (c :: rest) ∧ r2 ≠ [] ∧
              (∀ d ∈ r2, (d == '|') = false) ∧ w = trim r2 := by
          intro w hw
          obtain ⟨r2, hs2, hn2, hb2, hv2⟩ := ih after w hw
          exact ⟨r2, hs2.trans haftSub, hn2, hb2, hv2⟩
        by_cases hre : run.isEmpty = true
        · rw [if_pos hre] at h
          exact htail v h
        · rw [if_neg hre] at h
          rcases List.mem_cons.mp h with rfl | h2
          · exact ⟨run, hrunSub, hne, hbar, rfl⟩
          · exact htail v h2

/-- Scanning a text made of an equals-free leading part, the key, an equals sign
and an unterminated bar-free run, followed by the delimiter and the rest of
the combined text, finds that run first and continues in the rest. -/
theorem extractGo_trailing {key run B : Str} (hk : '=' ∉ key) (hr : run ≠ [])
    (hp : '|' ∉ run) :
    ∀ (A0 : Str) (fuel : Nat), '=' ∉ A0 →
      (A0 ++ (key ++ '=' :: (run ++ '|' :: (B ++ ['|'])))).length ≤ fuel →
      extractGo key fuel (A0 ++ (key ++ '=' :: (run ++ '|' :: (B ++ ['|'])))) =
        trim run :: extractGo key (B ++ ['|']).length (B ++ ['|']) := by
  intro A0
  induction A0 with
  | nil =>
    intro fuel _ hfuel
    rw [List.nil_append] at hfuel ⊢
    have htne : key ++ '=' :: (run ++ '|' :: (B ++ ['|'])) ≠ [] := by
      cases key <;> simp
    cases fuel with
    | zero =>
      exfalso
      have := List.length_pos.mpr htne
      omega
    | succ f =>
      rw [extractGo_ne_nil key f _ htne, matchAt_self key run (B ++ ['|']) hr hp]
      show (if run.isEmpty then extractGo key f (B ++ ['|'])
            else trim run :: extractGo key f (B ++ ['|'])) = _
      rw [isEmpty_eq_false hr]
      show trim run :: extractGo key f (B ++ ['|']) = _
      have hrun1 : 1 ≤ run.length := List.length_pos.mpr hr
      rw [extractGo_fuelEq key f (B ++ ['|']).length (B ++ ['|'])
        (by simp only [List.length_append, List.length_cons, List.length_nil] at hfuel ⊢; omega)
        le_rfl]
  | cons a A0' ihA =>
    intro fuel hA hfuel
    have hA' : '=' ∉ A0' := fun h => hA (by simp [h])
    rw [List.cons_append] at hfuel ⊢
    cases fuel with
    | zero => exact absurd hfuel (by simp)
    | succ f =>
      rw [extractGo_ne_nil key f _ (by simp), ← List.cons_append,
        matchAt_none_of_eqFree (by simp) hA hk]
      show extractGo key f (A0' ++ (key ++ '=' :: (run ++ '|' :: (B ++ ['|'])))) = _
      exact ihA f hA' (by simpa using hfuel)

/-- A left part free of the separating character stays inside the part of a
concatenation before that character. -/
theorem eqFree_leads :
    ∀ (v X t Y : Str) (c : Char), v ++ t = X ++ c :: Y → c ∉ v → ∃ w, X = v ++ w := by
  intro v
  induction v with
  | nil => intro X _ _ _ _ _; exact ⟨X, rfl⟩
  | cons a v' ih =>
    intro X t Y c h hc
    cases X with
    | nil =>
      simp only [List.nil_append, List.cons_append, List.cons.injEq] at h
      obtain ⟨rfl, -⟩ := h
      exact absurd (List.mem_cons_self _ _) hc
    | cons x X' =>
      simp only [List.cons_append, List.cons.injEq] at h
      obtain ⟨rfl, h2⟩ := h
      obtain ⟨w, rfl⟩ := ih X' t Y c h2 (fun hm => hc (List.mem_cons_of_mem a hm))
      exact ⟨w, by simp⟩

/-- A contiguous part free of the separating character lies wholly on one
side of it. -/
theorem subStr_split_at {v t Y : Str} {c : Char} (hc : c ∉ v) :
    ∀ (s X : Str), s ++ (v ++ t) = X ++ c :: Y → SubStr v X ∨ SubStr v Y := by
  intro s
  induction s with
  | nil =>
    intro X h
    rw [List.nil_append] at h
    obtain ⟨w, rfl⟩ := eqFree_leads v X t Y c h hc
    exact Or.inl ⟨[], w, by simp⟩
  | cons a s' ih =>
    intro X h
    cases X with
    | nil =>
      simp only [List.nil_append, List.cons_append, List.cons.injEq] at h
      exact Or.inr ⟨s', t, by rw [← h.2, List.append_assoc]⟩
    | cons x X' =>
      simp only [List.cons_append, List.cons.injEq] at h
      rcases ih X' h.2 with h3 | h3
      · exact Or.inl (SubStr_cons x h3)
      · exact Or.inr h3

/-- Every value extracted from the bar-joined combined text lies wholly
within one of the two source cells. -/
theorem extractValues_boundary {A B key v : Str}
    (hv : v ∈ extractValues (rawCombined A B) key) : SubStr v A ∨ SubStr v B := by
  unfold extractValues at hv
  obtain ⟨run, hsub, _, hbar, rfl⟩ := extractGo_mem_spec _ _ _ hv
  have hvr : SubStr (trim run) run := trim_subStr run
  have hvsub : SubStr (trim run) (rawCombined A B) := hvr.trans hsub
  have hvbar : ('|' : Char) ∉ trim run := by
    intro hm
    have := hbar '|' (hvr.mem hm)
    simp at this
  obtain ⟨p, q, hpq⟩ := hvsub
  have h1 : p ++ (trim run ++ q) = A ++ '|' :: (B ++ ['|']) := by
    simpa [rawCombined, List.append_assoc] using hpq.symm
  rcases subStr_split_at hvbar p A h1 with h | h
  · exact Or.inl h
  · obtain ⟨p2, q2, hpq2⟩ := h
    have h2 : p2 ++ (trim run ++ q2) = B ++ '|' :: [] := by
      simpa [List.append_assoc] using hpq2.symm
    rcases subStr_split_at hvbar p2 B h2 with h3 | h3
    · exact Or.inr h3
    · obtain ⟨p3, q3, h33⟩ := h3
      have hnil : trim run = [] := by
        have := congrArg List.length h33
        simp at this
        exact List.eq_nil_of_length_eq_zero (by omega)
      exact Or.inr ⟨[], B, by simp [hnil]⟩

/-- The high-risk test holds exactly when a nonempty configured keyword
occurs, case-insensitively, inside the customer name. -/
theorem isHighRiskB_iff (cfg : ProcessConfig) (name : Str) :
    isHighRiskB cfg name = true ↔
      ∃ kw ∈ cfg.highRiskKeywords, kw ≠ [] ∧ SubStr (toLowerStr kw) (toLowerStr name) := by
  simp [isHighRiskB, List.any_eq_true, Bool.and_eq_true, not_isEmpty_iff, containsSub_iff]

/-- The approval test holds exactly when a nonempty configured code equals
the CTR cell up to case. -/
theorem isAPRVB_iff (cfg : ProcessConfig) (ctr : Str) :
    isAPRVB cfg ctr = true ↔
      ∃ code ∈ cfg.aprvCodes, code ≠ [] ∧ toUpperStr ctr = toUpperStr code := by
  simp [isAPRVB, List.any_eq_true, Bool.and_eq_true, not_isEmpty_iff, beq_iff_eq]

/-- The ZKWD marker test is containment in the uppercased combined text. -/
theorem hasZKWD_iff (w aa : Str) :
    hasZKWD w aa = true ↔ SubStr ("ZKWD".toList) (combinedSearch w aa) :=
  containsSub_iff _ _

/-- The ZEMB marker test is containment in the uppercased combined text. -/
theorem hasZEMB_iff (w aa : Str) :
    hasZEMB w aa = true ↔ SubStr ("ZEMB".toList) (combinedSearch w aa) :=
  containsSub_iff _ _

/-- The high-risk test is false when every configured keyword is empty or
fails to occur in the customer name. -/
theorem isHighRiskB_eq_false (cfg : ProcessConfig) (name : Str)
    (hk : ∀ kw ∈ cfg.highRiskKeywords, kw = [] ∨ ¬ SubStr (toLowerStr kw) (toLowerStr name)) :
    isHighRiskB cfg name = false := by
  cases hb : isHighRiskB cfg name with
  | false => rfl
  | true =>
    obtain ⟨kw, hkw, hne, hsub⟩ := (isHighRiskB_iff cfg name).mp hb
    rcases hk kw hkw with rfl | hno
    · exact absurd rfl hne
    · exact absurd hsub hno

/-- The approval test is false when every configured code is empty or
differs from the CTR cell up to case. -/
theorem isAPRVB_eq_false (cfg : ProcessConfig) (ctr : Str)
    (hc : ∀ code ∈ cfg.aprvCodes, code = [] ∨ toUpperStr ctr ≠ toUpperStr code) :
    isAPRVB cfg ctr = false := by
  cases hb : isAPRVB cfg ctr with
  | false => rfl
  | true =>
    obtain ⟨code, hcode, hne, heq⟩ := (isAPRVB_iff cfg ctr).mp hb
    rcases hc code hcode with rfl | hno
    · exact absurd rfl hne
    · exact absurd heq hno

/-- A slot is the indexed extracted value with the empty string as default;
the falsy-replacement of the source changes nothing, since it only replaces
the empty string by itself. -/
theorem slot_eq_getD (l : List Str) (i : Nat) : slot l i = (l.get? i).getD [] := by
  unfold slot
  cases h : l.get? i with
  | none => rfl
  | some v =>
    cases v with
    | nil => rfl
    | cons a t => rfl

/-- Claim C1: for every five input strings and every configuration,
classification terminates (it is a total Lean function) and returns exactly
one element of the seven status labels, and two invocations on identical
inputs return the same element. -/
theorem classify_total (name ctr city a b : Str) (cfg : ProcessConfig) :
    classify name ctr city a b cfg ∈
      ["High Risk".toList, "APRV".toList, "ZKWD".toList, "ZEMB".toList,
        "ZKWD & ZEMB".toList, "No add".toList, "SPL".toList] ∧
    classify name ctr city a b cfg = classify name ctr city a b cfg := by
  refine ⟨?_, rfl⟩
  unfold classify
  split_ifs <;> simp

/-- Claim C2: when some nonempty configured keyword occurs case-insensitively
inside the customer name and the CTR code also equals, case-insensitively and
exactly, some configured approved code, the status is High Risk and never
APRV; the hypotheses are stated by membership, hence independent of the order
of the two configured sets. -/
theorem classify_highRisk_priority (name ctr city a b : Str) (cfg : ProcessConfig)
    (kw code : Str) (hkw : kw ∈ cfg.highRiskKeywords) (hne : kw ≠ [])
    (hsub : SubStr (toLowerStr kw) (toLowerStr name))
    (hcode : code ∈ cfg.aprvCodes) (heq : toUpperStr ctr = toUpperStr code) :
    classify name ctr city a b cfg = "High Risk".toList ∧
      classify name ctr city a b cfg ≠ "APRV".toList := by
  have hH : isHighRiskB cfg name = true := (isHighRiskB_iff cfg name).mpr ⟨kw, hkw, hne, hsub⟩
  have h1 : classify name ctr city a b cfg = "High Risk".toList := by
    simp [classify, hH]
  exact ⟨h1, by rw [h1]; decide⟩

/-- Witness for claim C2 at a concrete keyword, code and customer name. -/
theorem classify_highRisk_priority_witness :
    classify ("Acme Sanction".toList) ("RU".toList) [] [] []
        ⟨["sanction".toList], ["ru".toList]⟩ = "High Risk".toList ∧
      classify ("Acme Sanction".toList) ("RU".toList) [] [] []
        ⟨["sanction".toList], ["ru".toList]⟩ ≠ "APRV".toList :=
  classify_highRisk_priority ("Acme Sanction".toList) ("RU".toList) [] [] []
    ⟨["sanction".toList], ["ru".toList]⟩ ("sanction".toList) ("ru".toList)
    (by decide) (by decide) ((containsSub_iff _ _).mp (by decide))
    (by decide) (by decide)

/-- Claim C3: when no configured keyword and no configured approved code
matches, the uppercased combined search text decides the marker statuses:
both markers give ZKWD & ZEMB, only ZKWD gives ZKWD, only ZEMB gives ZEMB. -/
theorem classify_markers (name ctr city a b : Str) (cfg : ProcessConfig)
    (hk : ∀ kw ∈ cfg.highRiskKeywords, kw = [] ∨ ¬ SubStr (toLowerStr kw) (toLowerStr name))
    (hc : ∀ code ∈ cfg.aprvCodes, code = [] ∨ toUpperStr ctr ≠ toUpperStr code) :
    (SubStr ("ZKWD".toList) (combinedSearch a b) → SubStr ("ZEMB".toList) (combinedSearch a b) →
      classify name ctr city a b cfg = "ZKWD & ZEMB".toList) ∧
    (SubStr ("ZKWD".toList) (combinedSearch a b) → ¬ SubStr ("ZEMB".toList) (combinedSearch a b) →
      classify name ctr city a b cfg = "ZKWD".toList) ∧
    (¬ SubStr ("ZKWD".toList) (combinedSearch a b) → SubStr ("ZEMB".toList) (combinedSearch a b) →
      classify name ctr city a b cfg = "ZEMB".toList) := by
  have hH := isHighRiskB_eq_false cfg name hk
  have hA := isAPRVB_eq_false cfg ctr hc
  refine ⟨?_, ?_, ?_⟩
  · intro h1 h2
    have hz : hasZKWD a b = true := (hasZKWD_iff a b).mpr h1
    have he : hasZEMB a b = true := (hasZEMB_iff a b).mpr h2
    simp [classify, hH, hA, hz, he]
  · intro h1 h2
    have hz : hasZKWD a b = true := (hasZKWD_iff a b).mpr h1
    have he : hasZEMB a b = false := by
      cases hb : hasZEMB a b with
      | false => rfl
      | true => exact absurd ((hasZEMB_iff a b).mp hb) h2
    simp [classify, hH, hA, hz, he]
  · intro h1 h2
    have hz : hasZKWD a b = false := by
      cases hb : hasZKWD a b with
      | false => rfl
      | true => exact absurd ((hasZKWD_iff a b).mp hb) h1
    have he : hasZEMB a b = true := (hasZEMB_iff a b).mpr h2
    simp [classify, hH, hA, hz, he]

/-- Witness for claim C3 at concrete search texts carrying both markers. -/
theorem classify_markers_witness :
    classify [] [] [] ("ZKWD".toList) ("ZEMB".toList) ⟨[], []⟩ = "ZKWD & ZEMB".toList :=
  (classify_markers [] [] [] ("ZKWD".toList) ("ZEMB".toList) ⟨[], []⟩
      (by simp) (by simp)).1
    ((containsSub_iff _ _).mp (by decide)) ((containsSub_iff _ _).mp (by decide))

/-- Claim C4 as stated fails on the code: the empty string in the approved
set is skipped by the truthiness guard on the code, so an empty trimmed CTR
equal to that configured empty code is not classified APRV; here it falls
through to SPL. -/
theorem classify_aprv_empty_code_cex :
    classify ("Acme".toList) [] ("X".toList) [] [] ⟨[], [[]]⟩ = "SPL".toList ∧
      classify ("Acme".toList) [] ("X".toList) [] [] ⟨[], [[]]⟩ ≠ "APRV".toList := by
  decide

/-- Claim C4 amended: when the customer name matches no configured keyword
and the trimmed CTR code equals, case-insensitively and exactly, some
nonempty code of the configured approved set, the status is APRV. -/
theorem classify_aprv_amended (name ctr city a b : Str) (cfg : ProcessConfig)
    (hk : ∀ kw ∈ cfg.highRiskKeywords, kw = [] ∨ ¬ SubStr (toLowerStr kw) (toLowerStr name))
    (hcode : ∃ code ∈ cfg.aprvCodes, code ≠ [] ∧ toUpperStr ctr = toUpperStr code) :
    classify name ctr city a b cfg = "APRV".toList := by
  have hH := isHighRiskB_eq_false cfg name hk
  have hA : isAPRVB cfg ctr = true := (isAPRVB_iff cfg ctr).mpr hcode
  simp [classify, hH, hA]

/-- Witness for the amended claim C4 at a concrete code. -/
theorem classify_aprv_amended_witness :
    classify ("Acme".toList) ("ru".toList) [] [] [] ⟨[], ["RU".toList]⟩ = "APRV".toList :=
  classify_aprv_amended ("Acme".toList) ("ru".toList) [] [] [] ⟨[], ["RU".toList]⟩
    (by simp) ⟨"RU".toList, by decide, by decide, by decide⟩

/-- Claim C5 as stated fails on the code: a whitespace-only captured run is
not discarded, because the truthiness guard tests the captured run before
trimming and a whitespace run is truthy; the extractor returns one entry,
the empty string, where the claim demands none. -/
theorem extract_ws_value_cex :
    extractValues ("matchname= |".toList) ("matchname".toList) = [[]] ∧
      extractValues ("matchname= |".toList) ("matchname".toList) ≠ [] := by
  decide

/-- Claim C5 amended: a key=bar occurrence with an empty captured run yields
no entry, because the pattern demands at least one captured character; but an
occurrence whose nonempty bar-free run is all whitespace is kept and
contributes an entry that trims to the empty string. -/
theorem extract_skip_empty_amended :
    (∀ key : Str, extractValues (key ++ ['=', '|']) key = []) ∧
    (∀ key run : Str, '=' ∉ key → run ≠ [] → '|' ∉ run → (∀ c ∈ run, isWS c = true) →
      extractValues (rawCombined (key ++ '=' :: run) []) key = [[]]) := by
  constructor
  · intro key
    unfold extractValues
    exact extractGo_short _ _ (by simp)
  · intro key run hk hr hp hws
    unfold extractValues
    have hshape : rawCombined (key ++ '=' :: run) [] =
        [] ++ (key ++ '=' :: (run ++ '|' :: (([] : Str) ++ ['|']))) := by
      simp [rawCombined]
    rw [hshape, extractGo_trailing hk hr hp [] _ (by simp) le_rfl,
      trim_eq_nil_of_ws hws, extractGo_short _ _ (by simp)]

/-- Witness for the amended claim C5 at a concrete key and whitespace run. -/
theorem extract_skip_empty_amended_witness :
    extractValues (rawCombined (("matchname".toList) ++ '=' :: [' ']) []) ("matchname".toList) =
      [[]] :=
  extract_skip_empty_amended.2 ("matchname".toList) [' ']
    (by decide) (by decide) (by decide) (by decide)

/-- Claim C6 as stated fails on the code: the row loop skips only missing or
zero-length rows, so a nonempty row whose only cell is whitespace (hence
empty after trimming) still contributes an output row, here a No add row
with every other field empty. -/
theorem blank_row_not_skipped_cex :
    processRows [some [Cell.val [' ']]] ⟨[], []⟩ =
      Except.ok [newHeader, "No add".toList :: List.replicate 20 []] := by
  rfl

/-- Claim C6 amended: a row is skipped exactly when it is absent or has zero
cells; a nonempty row all of whose cells are empty or null after trimming is
still transformed into an output row. -/
theorem transformRow_skip_iff (cfg : ProcessConfig) (row : Option (List Cell)) :
    transformRow cfg row = none ↔ (row = none ∨ row = some []) := by
  cases row with
  | none => simp [transformRow]
  | some r =>
    cases r with
    | nil => simp [transformRow]
    | cons c cs => simp [transformRow]

/-- Claim C7: every surviving row becomes an output row of exactly 21 string
fields; each extraction category occupies five slots holding, in source
order, the first extracted values of its key, with every further slot the
empty string; values beyond the fifth are dropped. -/
theorem transformRow_shape (cfg : ProcessConfig) (r : List Cell) (out : List Str)
    (hne : r ≠ []) (hout : transformRow cfg (some r) = some out) :
    out.length = 21 ∧
    (∀ j, j < 5 → out.get? (6 + j) =
      some (((extractValues (rawCombined (getCellValue (some r) 22) (getCellValue (some r) 26))
        ("matchname".toList)).get? j).getD [])) ∧
    (∀ j, j < 5 → out.get? (11 + j) =
      some (((extractValues (rawCombined (getCellValue (some r) 22) (getCellValue (some r) 26))
        ("denialtype".toList)).get? j).getD [])) ∧
    (∀ j, j < 5 → out.get? (16 + j) =
      some (((extractValues (rawCombined (getCellValue (some r) 22) (getCellValue (some r) 26))
        ("splid".toList)).get? j).getD [])) := by
  have hlen : ¬ r.length = 0 := by simpa [List.length_eq_zero] using hne
  have hunfold : transformRow cfg (some r) =
      if r.length = 0 then none
      else some ([classify (getCellValue (some r) 8) (getCellValue (some r) 14)
            (getCellValue (some r) 11) (getCellValue (some r) 22) (getCellValue (some r) 26) cfg,
          getCellValue (some r) 2, getCellValue (some r) 3, getCellValue (some r) 8,
          getCellValue (some r) 11, getCellValue (some r) 14] ++
        slots5 (extractValues (rawCombined (getCellValue (some r) 22) (getCellValue (some r) 26))
          ("matchname".toList)) ++
        slots5 (extractValues (rawCombined (getCellValue (some r) 22) (getCellValue (some r) 26))
          ("denialtype".toList)) ++
        slots5 (extractValues (rawCombined (getCellValue (some r) 22) (getCellValue (some r) 26))
          ("splid".toList))) := rfl
  rw [hunfold, if_neg hlen] at hout
  obtain rfl := Option.some.inj hout
  refine ⟨rfl, ?_, ?_, ?_⟩
  · intro j hj
    interval_cases j <;> (rw [← slot_eq_getD]; rfl)
  · intro j hj
    interval_cases j <;> (rw [← slot_eq_getD]; rfl)
  · intro j hj
    interval_cases j <;> (rw [← slot_eq_getD]; rfl)

/-- Witness for claim C7 at a concrete one-cell row. -/
theorem transformRow_shape_witness :
    ([Cell.val ['x']] : List Cell) ≠ [] ∧
    transformRow ⟨[], []⟩ (some [Cell.val ['x']]) =
      some ("No add".toList :: List.replicate 20 []) ∧
    ("No add".toList :: List.replicate 20 ([] : Str)).length = 21 :=
  ⟨by decide, by rfl,
    (transformRow_shape ⟨[], []⟩ [Cell.val ['x']] _ (by decide) (by rfl)).1⟩

/-- Claim C8: the cell accessor is total (a total Lean function, it cannot
raise); it returns the empty string when the row is absent, the index is
negative or at or beyond the row's length, or the cell is null or undefined,
and otherwise the trimmed string form of the cell. -/
theorem getCellValue_safe (row : Option (List Cell)) (index : Int) :
    (row = none → getCellValue row index = []) ∧
    (index < 0 → getCellValue row index = []) ∧
    (∀ r, row = some r → (r.length : Int) ≤ index → getCellValue row index = []) ∧
    (∀ r, row = some r → 0 ≤ index → index < (r.length : Int) →
      (r.get? index.toNat = some Cell.absent → getCellValue row index = []) ∧
      (∀ s, r.get? index.toNat = some (Cell.val s) → getCellValue row index = trim s)) := by
  refine ⟨?_, ?_, ?_, ?_⟩
  · rintro rfl
    rfl
  · intro hneg
    cases row with
    | none => rfl
    | some r => simp [getCellValue, hneg]
  · rintro r rfl hge
    simp [getCellValue, hge]
  · rintro r rfl h0 hlt
    have hcond : ¬ (index < 0 ∨ (r.length : Int) ≤ index) := by omega
    constructor
    · intro habs
      rw [List.get?_eq_getElem?] at habs
      simp [getCellValue, hcond, habs]
    · intro s hval
      rw [List.get?_eq_getElem?] at hval
      simp [getCellValue, hcond, hval]

/-- Witness for claim C8 at concrete rows and indices. -/
theorem getCellValue_safe_witness :
    getCellValue none 0 = [] ∧
    getCellValue (some [Cell.val (' ' :: 'a' :: [])]) (-1) = [] ∧
    getCellValue (some [Cell.val (' ' :: 'a' :: [])]) 5 = [] ∧
    getCellValue (some [Cell.val (' ' :: 'a' :: [])]) 0 = trim (' ' :: 'a' :: []) :=
  ⟨(getCellValue_safe none 0).1 rfl,
    (getCellValue_safe (some [Cell.val (' ' :: 'a' :: [])]) (-1)).2.1 (by decide),
    (getCellValue_safe (some [Cell.val (' ' :: 'a' :: [])]) 5).2.2.1 _ rfl (by decide),
    ((getCellValue_safe (some [Cell.val (' ' :: 'a' :: [])]) 0).2.2.2 _ rfl (by decide)
      (by decide)).2 _ rfl⟩

/-- Claim C9: modelling the run from the parsed row array onward, the core
raises exactly when the source provides zero rows; the error carries no
report at all, and on every nonempty row sequence nothing inside the core
fails and the complete report, header plus every surviving row, is
returned. -/
theorem processRows_report (cfg : ProcessConfig) (rows : List (Option (List Cell))) :
    ((∃ e, processRows rows cfg = Except.error e) ↔ rows = []) ∧
    (rows ≠ [] → processRows rows cfg =
      Except.ok (newHeader :: rows.filterMap (transformRow cfg))) := by
  constructor
  · constructor
    · rintro ⟨e, he⟩
      by_contra hne
      have hlen : ¬ rows.length = 0 := by simpa [List.length_eq_zero] using hne
      simp [processRows, hlen] at he
    · rintro rfl
      exact ⟨"The selected Excel sheet is empty.", rfl⟩
  · intro hne
    have hlen : ¬ rows.length = 0 := by simpa [List.length_eq_zero] using hne
    simp [processRows, hlen]

/-- Witness for claim C9 at an empty and a one-row input. -/
theorem processRows_report_witness :
    (∃ e, processRows ([] : List (Option (List Cell))) ⟨[], []⟩ = Except.error e) ∧
    processRows [some [Cell.val ['x']]] ⟨[], []⟩ =
      Except.ok (newHeader :: [some [Cell.val ['x']]].filterMap (transformRow ⟨[], []⟩)) :=
  ⟨(processRows_report ⟨[], []⟩ []).1.mpr rfl,
    (processRows_report ⟨[], []⟩ [some [Cell.val ['x']]]).2 (by decide)⟩

/-- Any successful pattern attempt launched at the start of a bar-terminated
leading part stays inside that part: its closing bar lies within the part, so
the text after the attempt still carries the whole key-equals-run region,
behind a strictly shorter bar-terminated or empty leading part. -/
theorem matchAt_contained {key P T r aft : Str}
    (hm : matchAt key (P ++ T) = some (r, aft)) (hk : '=' ∉ key)
    (hP : ∃ P0, P = P0 ++ ['|']) (hT : ∃ X, T = key ++ '=' :: X) :
    ∃ Pd, aft = Pd ++ T ∧ Pd.length < P.length ∧ (Pd = [] ∨ ∃ Q, Pd = Q ++ ['|']) := by
  obtain ⟨P0, rfl⟩ := hP
  obtain ⟨X, rfl⟩ := hT
  obtain ⟨p0, htext, hlen, hrne, hbar⟩ := matchAt_spec hm
  have hr1 : 1 ≤ r.length := List.length_pos.mpr hrne
  by_cases hc : p0.length + 2 + r.length ≤ P0.length + 1
  · have h1 : (p0 ++ '=' :: (r ++ ['|'])) ++ aft = (P0 ++ ['|']) ++ (key ++ '=' :: X) := by
      simpa using htext.symm
    obtain ⟨w, hw, hw2⟩ := append_decomp _ _ _ _ h1 (by simp; omega)
    have hwlen := congrArg List.length hw
    simp at hwlen
    refine ⟨w, hw2, by simp; omega, ?_⟩
    cases w with
    | nil => exact Or.inl rfl
    | cons d w' =>
      obtain ⟨q, -, hq2⟩ := append_decomp _ _ _ _ hw.symm (by simp at hwlen ⊢; omega)
      exact Or.inr ⟨q, hq2⟩
  · exfalso
    by_cases ha : P0.length + 1 ≤ p0.length
    · obtain ⟨w, hw, hw2⟩ := append_decomp _ _ _ _ htext (by simp; omega)
      have hwlen := congrArg List.length hw
      simp at hwlen
      obtain ⟨u, hu, hu2⟩ := append_decomp _ _ _ _ hw2.symm (by omega)
      have hulen := congrArg List.length hu
      simp at hulen
      cases u with
      | nil => simp at hulen; omega
      | cons c u' =>
        injection hu2 with h6 _
        apply hk
        rw [hu, h6]
        simp
    · by_cases hb : p0.length = P0.length
      · have h3 : P0 ++ '|' :: (key ++ '=' :: X) = p0 ++ '=' :: (r ++ '|' :: aft) := by
          simpa using htext
        obtain ⟨-, h5⟩ := List.append_inj h3 hb.symm
        injection h5 with h6 _
        exact absurd h6 (by decide)
      · have h3 : (p0 ++ ['=']) ++ (r ++ '|' :: aft) = P0 ++ '|' :: (key ++ '=' :: X) := by
          simpa using htext.symm
        obtain ⟨w, hw, hw2⟩ := append_decomp _ _ _ _ h3 (by simp; omega)
        have hwlen := congrArg List.length hw
        simp at hwlen
        obtain ⟨u, hu, hu2⟩ := append_decomp _ _ _ _ hw2.symm (by omega)
        have hulen := congrArg List.length hu
        simp at hulen
        cases u with
        | nil => simp at hulen; omega
        | cons c u' =>
          injection hu2 with h6 _
          have hmem : ('|' : Char) ∈ r := by
            rw [hu, h6]
            simp
          have := hbar '|' hmem
          simp at this

/-- A text starting right at the key, the equals sign and a nonempty
bar-free run closed by a bar yields that run as the head of the scan. -/
theorem extractGo_head_mem {key run : Str} (hr : run ≠ []) (hp : '|' ∉ run)
    (rest : Str) (fuel : Nat)
    (hfuel : (key ++ '=' :: (run ++ '|' :: rest)).length ≤ fuel) :
    trim run ∈ extractGo key fuel (key ++ '=' :: (run ++ '|' :: rest)) := by
  have htne : key ++ '=' :: (run ++ '|' :: rest) ≠ [] := by cases key <;> simp
  cases fuel with
  | zero =>
    exfalso
    have := List.length_pos.mpr htne
    omega
  | succ f =>
    rw [extractGo_ne_nil key f _ htne, matchAt_self key run rest hr hp]
    show trim run ∈ (if run.isEmpty = true then extractGo key f rest
        else trim run :: extractGo key f rest)
    rw [isEmpty_eq_false hr]
    exact List.mem_cons_self _ _

/-- Scanning a text made of a leading part that is empty or ends at a field
boundary (a closing bar), then the key, an equals sign and an unterminated
bar-free run followed by the inserted delimiter and anything, always yields
the trimmed run among its values: every match inside the leading part stays
inside it, so the scan reaches the trailing occurrence. -/
theorem extractGo_trailing_mem {key run : Str} (hk : '=' ∉ key) (hr : run ≠ [])
    (hp : '|' ∉ run) (rest : Str) :
    ∀ (n : Nat) (P : Str) (fuel : Nat), P.length ≤ n →
      (P = [] ∨ ∃ P0, P = P0 ++ ['|']) →
      (P ++ (key ++ '=' :: (run ++ '|' :: rest))).length ≤ fuel →
      trim run ∈ extractGo key fuel (P ++ (key ++ '=' :: (run ++ '|' :: rest))) := by
  intro n
  induction n with
  | zero =>
    intro P fuel hPn _ hfuel
    have hP : P = [] := List.eq_nil_of_length_eq_zero (Nat.le_zero.mp hPn)
    subst hP
    rw [List.nil_append] at hfuel ⊢
    exact extractGo_head_mem hr hp rest fuel hfuel
  | succ m ih =>
    intro P fuel hPn hPbar hfuel
    rcases hPbar with rfl | ⟨P0, rfl⟩
    · rw [List.nil_append] at hfuel ⊢
      exact extractGo_head_mem hr hp rest fuel hfuel
    · have htne : (P0 ++ ['|']) ++ (key ++ '=' :: (run ++ '|' :: rest)) ≠ [] := by simp
      cases fuel with
      | zero =>
        exfalso
        have := List.length_pos.mpr htne
        omega
      | succ f =>
        rw [extractGo_ne_nil key f _ htne]
        cases hm : matchAt key ((P0 ++ ['|']) ++ (key ++ '=' :: (run ++ '|' :: rest))) with
        | none =>
          cases P0 with
          | nil =>
            show trim run ∈ extractGo key f (([] : Str) ++ (key ++ '=' :: (run ++ '|' :: rest)))
            refine ih [] f (by simp) (Or.inl rfl) ?_
            simp at hfuel ⊢
            omega
          | cons c P0' =>
            show trim run ∈ extractGo key f ((P0' ++ ['|']) ++ (key ++ '=' :: (run ++ '|' :: rest)))
            refine ih (P0' ++ ['|']) f ?_ (Or.inr ⟨P0', rfl⟩) ?_
            · simp at hPn ⊢
              omega
            · simp at hfuel ⊢
              omega
        | some pr =>
          obtain ⟨r, aft⟩ := pr
          have hrne : r ≠ [] := by
            obtain ⟨-, -, -, h4, -⟩ := matchAt_spec hm
            exact h4
          obtain ⟨Pd, haft, hlt, hbar2⟩ :=
            matchAt_contained hm hk ⟨P0, rfl⟩ ⟨run ++ '|' :: rest, rfl⟩
          show trim run ∈ (if r.isEmpty = true then extractGo key f aft
              else trim r :: extractGo key f aft)
          rw [isEmpty_eq_false hrne]
          refine List.mem_cons_of_mem _ ?_
          rw [haft]
          refine ih Pd f (by omega) hbar2 ?_
          have h5 := (matchAt_some_length hm).2
          have h6 := congrArg List.length haft
          omega

/-- Claim C10 as universally stated fails on the code: a trailing occurrence
whose closing bar is missing in the source is not always extracted, because
an earlier unterminated occurrence's greedy bar-free capture can swallow it;
here the cell matchname=matchname=Jane yields the single value
matchname=Jane, and Jane is never extracted on its own. -/
theorem extract_trailing_swallowed_cex :
    extractValues (rawCombined ("matchname=matchname=Jane".toList) []) ("matchname".toList) =
      ["matchname=Jane".toList] ∧
    ("Jane".toList) ∉ extractValues (rawCombined ("matchname=matchname=Jane".toList) [])
      ("matchname".toList) := by
  decide

/-- Claim C10 amended: the extractor receives the two search cells joined and
terminated by bars, and every extracted value lies wholly inside one of the
two cells (an occurrence cannot span the boundary).  An occurrence at the end
of either cell whose closing bar is missing in the source is still extracted,
terminated by the inserted delimiter, provided the text preceding it in the
combined input ends at a field boundary (it is empty or ends with a bar) and
the key is free of equals signs; otherwise an earlier occurrence's greedy
capture may swallow it, as the counterexample shows. -/
theorem extraction_boundary (key A B : Str) :
    (∀ v ∈ extractValues (rawCombined A B) key, SubStr v A ∨ SubStr v B) ∧
    (∀ A0 run : Str, '=' ∉ key → run ≠ [] → '|' ∉ run →
      (A0 = [] ∨ ∃ Q, A0 = Q ++ ['|']) →
      trim run ∈ extractValues (rawCombined (A0 ++ (key ++ '=' :: run)) B) key) ∧
    (∀ B0 run : Str, '=' ∉ key → run ≠ [] → '|' ∉ run →
      (B0 = [] ∨ ∃ Q, B0 = Q ++ ['|']) →
      trim run ∈ extractValues (rawCombined A (B0 ++ (key ++ '=' :: run))) key) := by
  refine ⟨fun v hv => extractValues_boundary hv, ?_, ?_⟩
  · intro A0 run hk hr hp hbar
    unfold extractValues
    have hshape : rawCombined (A0 ++ (key ++ '=' :: run)) B =
        A0 ++ (key ++ '=' :: (run ++ '|' :: (B ++ ['|']))) := by
      simp [rawCombined]
    rw [hshape]
    exact extractGo_trailing_mem hk hr hp (B ++ ['|']) A0.length A0 _ le_rfl hbar le_rfl
  · intro B0 run hk hr hp hbar
    unfold extractValues
    have hshape : rawCombined A (B0 ++ (key ++ '=' :: run)) =
        (A ++ '|' :: B0) ++ (key ++ '=' :: (run ++ '|' :: ([] : Str))) := by
      simp [rawCombined]
    rw [hshape]
    have hbar2 : (A ++ '|' :: B0 = []) ∨ ∃ Q, A ++ '|' :: B0 = Q ++ ['|'] := by
      rcases hbar with rfl | ⟨Q, rfl⟩
      · exact Or.inr ⟨A, rfl⟩
      · exact Or.inr ⟨A ++ '|' :: Q, by simp⟩
    exact extractGo_trailing_mem hk hr hp [] (A ++ '|' :: B0).length (A ++ '|' :: B0) _
      le_rfl hbar2 le_rfl

/-- Witness for the amended claim C10: a trailing unterminated occurrence
after a bar-closed field in the first cell, and one filling the whole second
cell, are both extracted. -/
theorem extraction_boundary_witness :
    trim ("Fraud".toList) ∈
      extractValues (rawCombined (("matchname=John|".toList) ++
        ("denialtype".toList ++ '=' :: "Fraud".toList)) []) ("denialtype".toList) ∧
    trim ("Jane".toList) ∈
      extractValues (rawCombined ("x".toList) (([] : Str) ++
        ("matchname".toList ++ '=' :: "Jane".toList))) ("matchname".toList) :=
  ⟨(extraction_boundary ("denialtype".toList) [] []).2.1
      ("matchname=John|".toList) ("Fraud".toList) (by decide) (by decide) (by decide)
      (Or.inr ⟨"matchname=John".toList, by decide⟩),
    (extraction_boundary ("matchname".toList) ("x".toList) []).2.2
      [] ("Jane".toList) (by decide) (by decide) (by decide) (Or.inl rfl)⟩

example : extractValues ("a matchname=John Doe|x".toList) ("matchname".toList) =
    ["John Doe".toList] := by decide

example : extractValues ("matchname= |".toList) ("matchname".toList) = [[]] := by decide

example : extractValues ("matchname=|matchname=X|".toList) ("matchname".toList) =
    ["X".toList] := by decide

example : classify ("Acme Sanction".toList) ("RU".toList) [] [] []
    ⟨["sanction".toList], ["ru".toList]⟩ = "High Risk".toList := by decide

end Zyme
